import Mathlib

/-!
Verification of the robustness-calculation core of `systemrobustness`
(`robustness/calc.py`, `robustness/metrics/transforms/t1.py`,
`robustness/metrics/transforms/t3.py`).

The performance table (`pandas.DataFrame` with columns
`['s_idx', 'l_idx', <performance columns>...]`) is embedded as a list of
rows; id columns may hold numbers or strings (pandas object columns).
Machine floats are embedded as exact rationals; the IEEE NaN produced by
a zero divisor is embedded as `Option.none`.  numpy/pandas primitives
used by the source (`sort_values`, `unique`, `np.allclose`, `np.reshape`,
`np.amax`, `np.mean`, `np.var`, ...) are embedded with their documented
semantics, including `np.allclose`'s tolerances and broadcasting rules
and `sort_values`' default `inplace=False` (the receiver is unchanged and
a new frame is returned).

Each `DataFrame`-consuming function returns a pair
`(state of the caller's table object after the call, result)` so that
absence of in-place mutation is a provable statement rather than an
artifact of the embedding.
-/

set_option maxRecDepth 8000

namespace SystemRobustness

/-- A cell of an id column (`s_idx` / `l_idx`): pandas object columns may
hold numbers or strings. -/
inductive IdVal where
  | num (q : ℚ)
  | str (s : String)
deriving DecidableEq

/-- One table row: `(s_idx, l_idx, values of the remaining columns)`. -/
abbrev Row := IdVal × IdVal × List ℚ

/-- The performance table `f_df`: the names of the columns after
`s_idx`, `l_idx`, and the rows. -/
structure Table where
  colNames : List String
  rows : List Row
deriving DecidableEq

/-- `df.columns` of the embedded frame. -/
def dfCols (t : Table) : List String :=
  "s_idx" :: "l_idx" :: t.colNames

/-- The `s_idx` column, in row order. -/
def sVals (t : Table) : List IdVal := t.rows.map (fun r => r.1)

/-- The `l_idx` column, in row order. -/
def lVals (t : Table) : List IdVal := t.rows.map (fun r => r.2.1)

/-- Total order used by `sort_values` on id cells (numbers by value,
strings lexicographically; only homogeneous columns occur in practice). -/
def IdVal.leb : IdVal → IdVal → Bool
  | .num a, .num b => decide (a ≤ b)
  | .str a, .str b => decide (a < b) || a == b
  | .num _, .str _ => true
  | .str _, .num _ => false

/-- Row comparison for `sort_values(['l_idx', 's_idx'], ascending=[True, True])`:
by `l_idx` first, then by `s_idx`. -/
def rowLe (r1 r2 : Row) : Bool :=
  if r1.2.1 == r2.2.1 then IdVal.leb r1.1 r2.1 else IdVal.leb r1.2.1 r2.2.1

/-- Insert a row into a `rowLe`-sorted list of rows. -/
def insertRow (r : Row) : List Row → List Row
  | [] => [r]
  | x :: xs => if rowLe r x then r :: x :: xs else x :: insertRow r xs

/-- Sort rows ascending under `rowLe`. -/
def sortRows : List Row → List Row
  | [] => []
  | r :: rs => insertRow r (sortRows rs)

/-- The frame `sort_values(['l_idx', 's_idx'], ascending=[True, True])`
would return: rows sorted ascending by `(l_idx, s_idx)`. -/
def sortValues (t : Table) : Table :=
  ⟨t.colNames, sortRows t.rows⟩

/-- The call `f_df.sort_values(['l_idx', 's_idx'], ascending=[True, True])`
with the default `inplace=False`: the receiver's state is unchanged and a
new sorted frame is the call's value. -/
def sortValuesCall (t : Table) : Table × Table :=
  (t, sortValues t)

/-- `sort_f_df` (calc.py lines 83-98).  Line 97 evaluates
`f_df.sort_values(...)` and discards its value; line 98 returns `f_df`.
Result: `(state of the argument object after the call, returned table)`. -/
def sort_f_df (f_df : Table) : Table × Table :=
  let c := sortValuesCall f_df
  (c.fst, c.fst)

/-- Helper for `uniqueFirst`: values of the second list not in `seen`,
keeping first appearances. -/
def uniqueFirstAux : List IdVal → List IdVal → List IdVal
  | _, [] => []
  | seen, x :: xs =>
    if x ∈ seen then uniqueFirstAux seen xs
    else x :: uniqueFirstAux (x :: seen) xs

/-- `pandas.Series.unique`: distinct values in order of first appearance. -/
def uniqueFirst (l : List IdVal) : List IdVal := uniqueFirstAux [] l

/-- `np.allclose` default absolute tolerance. -/
def atol : ℚ := 1 / 100000000

/-- `np.allclose` default relative tolerance. -/
def rtol : ℚ := 1 / 100000

/-- `np.isclose(a, b)` on finite values:
`|a - b| <= atol + rtol * |b|`. -/
def isclose (a b : ℚ) : Bool :=
  decide (|a - b| ≤ atol + rtol * |b|)

/-- Whether every cell of an id column is numeric. -/
def allNum (l : List IdVal) : Bool :=
  l.all (fun v => match v with | .num _ => true | .str _ => false)

/-- Numeric value of an id cell (only meaningful under `allNum`). -/
def numOf : IdVal → ℚ
  | .num q => q
  | .str _ => 0

/-- `np.allclose(a, b)` on two 1-d arrays: raises `TypeError` when the
data is not numeric, broadcasts shapes `(k,)` against `(m,)` when `k = m`
or either is 1, raises `ValueError` otherwise, and elementwise applies
`isclose`. -/
def allclose (a b : List IdVal) : Except String Bool :=
  if allNum a && allNum b then
    let a' := a.map numOf
    let b' := b.map numOf
    if a'.length = b'.length then
      .ok ((List.zipWith isclose a' b').all (fun x => x))
    else if a'.length = 1 then
      .ok (b'.all (fun y => isclose (a'.headD 0) y))
    else if b'.length = 1 then
      .ok (a'.all (fun x => isclose x (b'.headD 0)))
    else
      .error "ValueError"
  else
    .error "TypeError"

/-- The `l_idx` values of the rows whose `s_idx` equals `s`
(`f_df.loc[f_df['s_idx'] == s_idx]['l_idx'].values`). -/
def relevantL (rows : List Row) (s : IdVal) : List IdVal :=
  (rows.filter (fun r => r.1 == s)).map (fun r => r.2.1)

/-- The validation loop of `get_f_df_details` (calc.py lines 127-130):
for each scenario id, `assert np.allclose(relevant_l_idxs, l_idxs)`. -/
def checkCoverage (rows : List Row) (l_idxs : List IdVal) : List IdVal → Except String Unit
  | [] => .ok ()
  | s :: rest =>
    match allclose (relevantL rows s) l_idxs with
    | .error e => .error e
    | .ok c => if c then checkCoverage rows l_idxs rest else .error "AssertionError"

/-- `get_f_df_details` (calc.py lines 101-132): re-"sorts" via
`sort_f_df`, takes the unique scenario and decision-alternative ids, and
runs the coverage assertion loop.  Result:
`(state of the argument object after the call, s_idxs and l_idxs or the raised error)`. -/
def get_f_df_details (f_df : Table) : Table × Except String (List IdVal × List IdVal) :=
  let s1 := sort_f_df f_df
  let f_df1 := s1.snd
  let s_idxs := uniqueFirst (sVals f_df1)
  let l_idxs := uniqueFirst (lVals f_df1)
  (s1.fst, (checkCoverage f_df1.rows l_idxs s_idxs).map (fun _ => (s_idxs, l_idxs)))

/-- Column extraction `f_df.iloc[:, f_df.columns.get_loc(c)].values`.
The id columns are embedded as numeric extraction (raising on
string-valued cells); a missing name raises `KeyError`. -/
def getColVals (t : Table) (c : String) : Except String (List ℚ) :=
  if c = "s_idx" then
    if allNum (sVals t) then .ok ((sVals t).map numOf) else .error "TypeError"
  else if c = "l_idx" then
    if allNum (lVals t) then .ok ((lVals t).map numOf) else .error "TypeError"
  else
    match t.colNames.findIdx? (fun x => x == c) with
    | some i => .ok (t.rows.map (fun r => (r.2.2).getD i 0))
    | none => .error "KeyError"

/-- Row-major rows of `np.reshape(vals, (m, n))`. -/
def reshapeRows (m n : ℕ) (vals : List ℚ) : List (List ℚ) :=
  (List.range m).map (fun i => (vals.drop (i * n)).take n)

/-- `np.reshape(vals, newshape=(m, n))`: raises `ValueError` unless the
element count matches. -/
def npReshape (vals : List ℚ) (m n : ℕ) : Except String (List (List ℚ)) :=
  if vals.length = m * n then .ok (reshapeRows m n vals) else .error "ValueError"

/-- One entry of `R_dict`: the performance column name `f`, the
`maximise` flag, the robustness metric function `func` (receiving the
reshaped performance matrix, `maximise`, and the reshaped keyword-column
matrices), and the keyword column names `kws`. -/
structure MetricSpec where
  f : String
  maximise : Bool
  func : List (List ℚ) → Bool → List (String × List (List ℚ)) → List ℚ
  kws : List String

/-- `f_to_R` (calc.py lines 9-79).  Asserts every referenced performance
column exists, calls `sort_f_df` and `get_f_df_details`, then for each
metric reshapes its keyword columns and performance column into
`(l_idxs.size, s_idxs.size)` matrices and applies the metric function.
Result: `(state of the caller's table object after the call, the R dict
or the raised error)`. -/
def f_to_R (f_df : Table) (R_dict : List (String × MetricSpec)) :
    Table × Except String (List (String × List ℚ)) :=
  let df_cols := dfCols f_df
  if (R_dict.map (fun p => p.2.f)).all (fun m => df_cols.contains m) then
    let s1 := sort_f_df f_df
    let d := get_f_df_details s1.snd
    match d.snd with
    | .error e => (d.fst, .error e)
    | .ok sl =>
      (d.fst, R_dict.mapM (fun p => do
        let kwargs ← p.2.kws.mapM (fun kw => do
          if df_cols.contains kw then
            let vals ← getColVals d.fst kw
            let mat ← npReshape vals sl.2.length sl.1.length
            pure (kw, mat)
          else Except.error "AssertionError")
        let vals ← getColVals d.fst p.2.f
        let fmat ← npReshape vals sl.2.length sl.1.length
        pure (p.1, p.2.func fmat p.2.maximise kwargs)))
  else (f_df, .error "AssertionError")

/-- The R dict computed by `f_to_R`, or `none` when the call raised. -/
def resultOf (t : Table) (R : List (String × MetricSpec)) :
    Option (List (String × List ℚ)) :=
  match (f_to_R t R).snd with
  | .ok r => some r
  | .error _ => none

/-- Whether an embedded call completed without raising. -/
def exceptIsOk {α : Type} : Except String α → Bool
  | .ok _ => true
  | .error _ => false

/-- The full-cross-product invariant of the table: every
(scenario id, decision-alternative id) combination occurs in some row. -/
def fullCrossB (t : Table) : Bool :=
  (sVals t).all (fun s =>
    (lVals t).all (fun l =>
      t.rows.any (fun r => r.1 == s && r.2.1 == l)))

/-- Numeric `l_idx` values of the table, in row order. -/
def lNums (t : Table) : List ℚ :=
  (lVals t).filterMap (fun v => match v with | .num q => some q | .str _ => none)

/-- Every two distinct numeric `l_idx` values of the table are farther
apart than `np.allclose`'s tolerances. -/
def lSepB (t : Table) : Bool :=
  (lNums t).all (fun x => (lNums t).all (fun y => x == y || !(isclose x y)))

/-! ### T1 transforms (`transforms/t1.py`) -/

/-- `identity` (t1.py lines 16-38): `f` when maximising, `-f` otherwise. -/
def identity (f : List (List ℚ)) (maximise : Bool) : List (List ℚ) :=
  if maximise then f else f.map (fun r => r.map (fun x => -x))

/-- `np.amax(f, axis=0)`: columnwise maximum over the rows. -/
def amax0 : List (List ℚ) → List ℚ
  | [] => []
  | r :: rs => rs.foldl (fun acc row => List.zipWith max acc row) r

/-- `regret_from_best_da` (t1.py lines 41-66): apply `identity`, then
subtract the columnwise maximum from every entry of its column. -/
def regret_from_best_da (f : List (List ℚ)) (maximise : Bool) : List (List ℚ) :=
  let g := identity f maximise
  let best := amax0 g
  g.map (fun row => List.zipWith (fun a b => a - b) row best)

/-- `satisfice` (t1.py lines 135-166): `_f = identity(f, maximise)`;
`c = threshold if maximise else -threshold`;
`_f = _f >= c if accept_equal else _f > c`; `np.where(_f, 1., 0.)`. -/
def satisfice (f : List (List ℚ)) (maximise : Bool) (threshold : ℚ)
    (accept_equal : Bool) : List (List ℚ) :=
  let g := identity f maximise
  let c := if maximise then threshold else -threshold
  let b : List (List Bool) :=
    if accept_equal then g.map (fun r => r.map (fun x => decide (c ≤ x)))
    else g.map (fun r => r.map (fun x => decide (c < x)))
  b.map (fun r => r.map (fun v => if v then (1 : ℚ) else 0))

/-- The satisficing transform as claim C3 words it: 1.0 where the
sign-flipped value meets the *given* threshold, 0.0 elsewhere
(spec-side definition, for comparison with `satisfice`). -/
def satisficeSpecClaimed (f : List (List ℚ)) (maximise : Bool) (threshold : ℚ)
    (accept_equal : Bool) : List (List ℚ) :=
  (identity f maximise).map (fun r => r.map (fun x =>
    if (if accept_equal then threshold ≤ x else threshold < x) then (1 : ℚ) else 0))

/-- The amended claim C3: 1.0 where the sign-flipped value meets the
correspondingly sign-flipped threshold (`threshold` when maximising,
`-threshold` when minimising), 0.0 elsewhere. -/
def satisficeSpecAmended (f : List (List ℚ)) (maximise : Bool) (threshold : ℚ)
    (accept_equal : Bool) : List (List ℚ) :=
  let c := if maximise then threshold else -threshold
  (identity f maximise).map (fun r => r.map (fun x =>
    if (if accept_equal then c ≤ x else c < x) then (1 : ℚ) else 0))

/-! ### T2 stage (absent from `src`) and the metric composer -/

/-- Modelled from the spec: `t2.all_scenarios` is absent from `src` (only
`t1.py` and `t3.py` ship there); §4.2 specifies it as the identity
passthrough with `k = n`. -/
def all_scenarios (f : List (List ℚ)) : List (List ℚ) := f

/-- Modelled from the spec: `custom_R_metric` is absent from `src`; §4.4
specifies it as the composition applying T1, then T2, then T3 in strict
sequence, threading `maximise` only into T1. -/
def custom_R_metric (t1f : List (List ℚ) → Bool → List (List ℚ))
    (t2f : List (List ℚ) → List (List ℚ))
    (t3f : List (List ℚ) → List ℚ) :
    List (List ℚ) → Bool → List (String × List (List ℚ)) → List ℚ :=
  fun f maximise _kwargs => t3f (t2f (t1f f maximise))

/-! ### T3 reductions (`transforms/t3.py`) -/

/-- `np.mean` of one row. -/
def rowMean (r : List ℚ) : ℚ := r.sum / (r.length : ℚ)

/-- `f_mean` (t3.py lines 13-28): `np.mean(f, axis=1)`. -/
def f_mean (f : List (List ℚ)) : List ℚ := f.map rowMean

/-- `f_sum` (t3.py lines 31-46): `np.sum(f, axis=1) / f.shape[1]`. -/
def f_sum (f : List (List ℚ)) : List ℚ :=
  let n := (f.headD []).length
  f.map (fun r => r.sum / (n : ℚ))

/-- `np.var(row, ddof=1)`: the sample variance
`(sum of squared deviations from the mean) / (k - 1)`.  For `k <= 1` the
zero divisor yields IEEE NaN (with a warning, no exception), embedded as
`none`. -/
def rowVarSample (r : List ℚ) : Option ℚ :=
  if 2 ≤ r.length then
    some (((r.map (fun x => (x - rowMean r) ^ 2)).sum) / ((r.length : ℚ) - 1))
  else none

/-- `f_variance` (t3.py lines 71-88): `np.var(f, axis=1, ddof=1)`. -/
def f_variance (f : List (List ℚ)) : List (Option ℚ) := f.map rowVarSample

/-- Column `j` of a matrix. -/
def col (f : List (List ℚ)) (j : ℕ) : List ℚ := f.map (fun r => r.getD j 0)

/-! ### Concrete tables used by the claims -/

/-- `IdVal.num` of a natural literal, for readability of tables. -/
def nv (n : ℕ) : IdVal := IdVal.num n

/-- The metric specification used by the `__main__`-style examples:
`custom_R_metric(identity, all_scenarios, f_mean)` on column `return`,
maximising, no keyword columns. -/
def meanSpec : MetricSpec :=
  ⟨"return", true, custom_R_metric identity all_scenarios f_mean, []⟩

/-- The table of calc.py's `__main__` block, in source-listing order:
`s_idx = [0,1,2]*4`, `l_idx = [0,0,0,1,1,1,2,2,2,3,3,3]`,
`return = [-4,4,12,-2,3,8,3,2,1,3,3,3]`. -/
def dfMain : Table :=
  ⟨["return"],
   [(nv 0, nv 0, [-4]), (nv 1, nv 0, [4]), (nv 2, nv 0, [12]),
    (nv 0, nv 1, [-2]), (nv 1, nv 1, [3]), (nv 2, nv 1, [8]),
    (nv 0, nv 2, [3]), (nv 1, nv 2, [2]), (nv 2, nv 2, [1]),
    (nv 0, nv 3, [3]), (nv 1, nv 3, [3]), (nv 2, nv 3, [3])]⟩

/-- A full-cross-product table (`s ∈ [0,1,2]`, `l ∈ [0,1]`) whose rows
list decision alternative 1 before decision alternative 0. -/
def tPerm : Table :=
  ⟨["return"],
   [(nv 0, nv 1, [10]), (nv 1, nv 1, [10]), (nv 2, nv 1, [10]),
    (nv 0, nv 0, [0]), (nv 1, nv 0, [0]), (nv 2, nv 0, [0])]⟩

/-- A full-cross-product table (`s ∈ [0,1]`, `l ∈ [0,1]`) whose rows
list decision alternative 1 before decision alternative 0. -/
def tC5 : Table :=
  ⟨["return"],
   [(nv 0, nv 1, [7]), (nv 1, nv 1, [7]),
    (nv 0, nv 0, [5]), (nv 1, nv 0, [5])]⟩

/-- The rational 10⁻⁹. -/
def tinyId : ℚ := 1 / 1000000000

/-- A table with the distinct decision-alternative ids 0 and 10⁻⁹
(within `np.allclose`'s absolute tolerance of each other), a duplicated
`(1, 0)` row, and the combination `(1, 10⁻⁹)` missing. -/
def tTol : Table :=
  ⟨["return"],
   [(nv 0, IdVal.num 0, [1]), (nv 0, IdVal.num tinyId, [2]),
    (nv 1, IdVal.num 0, [3]), (nv 1, IdVal.num 0, [4])]⟩

/-- A table with `s ∈ [0,1]`, `l ∈ [0,1]` and the combination `(1, 1)`
missing. -/
def tMissing : Table :=
  ⟨["return"],
   [(nv 0, nv 0, [1]), (nv 0, nv 1, [2]), (nv 1, nv 0, [3])]⟩

/-- A full-cross-product table whose decision-alternative ids are
strings. -/
def tStrIds : Table :=
  ⟨["return"],
   [(nv 0, IdVal.str "a", [1]), (nv 0, IdVal.str "b", [2]),
    (nv 1, IdVal.str "a", [3]), (nv 1, IdVal.str "b", [4])]⟩

/-! ### Claim theorems -/

/-- C1: `sort_f_df` is claimed to return the table sorted ascending by
`(l_idx, s_idx)` and `f_to_R` is claimed to be invariant under row
permutations of the table.  In the code the result of `sort_values` is
discarded (pandas' default is `inplace=False`), so `sort_f_df` returns
its input unchanged; on the unsorted full-cross-product table `tPerm`
the returned table differs from the actually sorted one, and `f_to_R`
yields a different R vector on `tPerm` than on its sorted permutation. -/
theorem sort_f_df_noop_breaks_canonical_order :
    (sort_f_df tPerm).snd = tPerm ∧
    (sort_f_df tPerm).snd ≠ sortValues tPerm ∧
    resultOf tPerm [("Mean", meanSpec)] = some [("Mean", [10, 0])] ∧
    resultOf (sortValues tPerm) [("Mean", meanSpec)] = some [("Mean", [0, 10])] :=
  ⟨by with_unfolding_all decide, by with_unfolding_all decide,
   by with_unfolding_all decide, by with_unfolding_all decide⟩

/-- C2 (counterexample): `tTol` is missing the combination
`(1, 10⁻⁹)`, hence is not a full cross-product, yet `f_to_R` does not
fail: the coverage check's `np.allclose` treats the ids 0 and 10⁻⁹ as
equal within tolerance, the metric pipeline is invoked, and a result is
returned. -/
theorem f_to_R_accepts_non_cross_product_within_tolerance :
    fullCrossB tTol = false ∧
    resultOf tTol [("Mean", meanSpec)] = some [("Mean", [3/2, 7/2])] := by
  refine ⟨?_, by with_unfolding_all decide⟩
  have hs : nv 1 ∈ sVals tTol :=
    List.mem_cons_of_mem _ (List.mem_cons_of_mem _ (List.mem_cons_self _ _))
  have hl : IdVal.num tinyId ∈ lVals tTol :=
    List.mem_cons_of_mem _ (List.mem_cons_self _ _)
  have hrow : tTol.rows.any
      (fun r => r.1 == nv 1 && r.2.1 == IdVal.num tinyId) = false := by
    with_unfolding_all decide
  rw [Bool.eq_false_iff]
  intro h
  rw [fullCrossB, List.all_eq_true] at h
  have h1 := h (nv 1) hs
  rw [List.all_eq_true] at h1
  have h2 := h1 (IdVal.num tinyId) hl
  rw [hrow] at h2
  exact Bool.false_ne_true h2

/-- C3 (counterexample): at `f = [[-2]]`, `maximise = False`,
`threshold = 3`, `accept_equal = True`, `satisfice` compares the flipped
value 2 against the flipped threshold -3 and returns 1.0, whereas the
claim's reading (flipped value against the given threshold 3) yields
0.0. -/
theorem satisfice_differs_from_claimed_reading :
    satisfice [[-2]] false 3 true ≠ satisficeSpecClaimed [[-2]] false 3 true := by
  with_unfolding_all decide

/-- C4: on the `__main__` table (source-listing order), the `return`
column reshapes to the 4×3 matrix `[[-4,4,12],[-2,3,8],[3,2,1],[3,3,3]]`,
and the pipeline `identity` (maximise=True) → `all_scenarios` → `f_mean`
run through `f_to_R` yields the robustness vector `[4, 3, 2, 3]`, the
row means of that matrix. -/
theorem end_to_end_mean_example :
    reshapeRows 4 3 [-4, 4, 12, -2, 3, 8, 3, 2, 1, 3, 3, 3] =
      [[-4, 4, 12], [-2, 3, 8], [3, 2, 1], [3, 3, 3]] ∧
    custom_R_metric identity all_scenarios f_mean
      [[-4, 4, 12], [-2, 3, 8], [3, 2, 1], [3, 3, 3]] true [] = [4, 3, 2, 3] ∧
    resultOf dfMain [("MeanAll", meanSpec)] = some [("MeanAll", [4, 3, 2, 3])] :=
  ⟨by with_unfolding_all decide, by with_unfolding_all decide,
   by with_unfolding_all decide⟩

/-- C5: on the valid full-cross-product table `tC5`, whose rows list
decision alternative 1 before 0, `f_to_R` succeeds and returns the plain
metric-name-to-vector mapping `[("Mean", [7, 5])]`: the vector follows
the first-appearance order `[1, 0]` of `l_idx` (the value 5 of decision
alternative 0 is second, not first), and no `l_idx` identity accompanies
the values. -/
theorem f_to_R_result_in_appearance_order_without_lidx :
    fullCrossB tC5 = true ∧
    uniqueFirst (lVals tC5) = [IdVal.num 1, IdVal.num 0] ∧
    resultOf tC5 [("Mean", meanSpec)] = some [("Mean", [7, 5])] :=
  ⟨by with_unfolding_all decide, by with_unfolding_all decide,
   by with_unfolding_all decide⟩

/-- Membership in `uniqueFirstAux`: in the remaining list and not
already seen. -/
theorem mem_uniqueFirstAux (a : IdVal) :
    ∀ (l seen : List IdVal), a ∈ uniqueFirstAux seen l ↔ a ∈ l ∧ a ∉ seen := by
  intro l
  induction l with
  | nil => intro seen; simp [uniqueFirstAux]
  | cons x xs ih =>
    intro seen
    simp only [uniqueFirstAux]
    by_cases hx : x ∈ seen
    · rw [if_pos hx, ih]
      constructor
      · rintro ⟨h1, h2⟩; exact ⟨List.mem_cons_of_mem _ h1, h2⟩
      · rintro ⟨h1, h2⟩
        rcases List.mem_cons.mp h1 with rfl | h1'
        · exact absurd hx h2
        · exact ⟨h1', h2⟩
    · rw [if_neg hx]
      constructor
      · intro h
        rcases List.mem_cons.mp h with rfl | h'
        · exact ⟨List.mem_cons_self _ _, hx⟩
        · obtain ⟨h1, h2⟩ := (ih (x :: seen)).mp h'
          exact ⟨List.mem_cons_of_mem _ h1,
                 fun hs => h2 (List.mem_cons_of_mem _ hs)⟩
      · rintro ⟨h1, h2⟩
        rcases List.mem_cons.mp h1 with rfl | h1'
        · exact List.mem_cons_self _ _
        · by_cases hax : a = x
          · subst hax; exact List.mem_cons_self _ _
          · exact List.mem_cons_of_mem _
              ((ih (x :: seen)).mpr ⟨h1', by simp [List.mem_cons, hax, h2]⟩)

/-- `unique` returns exactly the values of the column. -/
theorem mem_uniqueFirst (a : IdVal) (l : List IdVal) :
    a ∈ uniqueFirst l ↔ a ∈ l := by
  rw [uniqueFirst, mem_uniqueFirstAux]; simp

/-- `uniqueFirstAux` never repeats a value. -/
theorem nodup_uniqueFirstAux :
    ∀ (l seen : List IdVal), (uniqueFirstAux seen l).Nodup := by
  intro l
  induction l with
  | nil => intro seen; simp [uniqueFirstAux]
  | cons x xs ih =>
    intro seen
    simp only [uniqueFirstAux]
    by_cases hx : x ∈ seen
    · rw [if_pos hx]; exact ih seen
    · rw [if_neg hx]
      refine List.nodup_cons.mpr ⟨?_, ih (x :: seen)⟩
      intro hmem
      exact ((mem_uniqueFirstAux x xs (x :: seen)).mp hmem).2
        (List.mem_cons_self _ _)

/-- `unique` returns distinct values. -/
theorem nodup_uniqueFirst (l : List IdVal) : (uniqueFirst l).Nodup :=
  nodup_uniqueFirstAux l []

/-- If the coverage loop of `get_f_df_details` completes, every
processed scenario id passed its `np.allclose` assertion. -/
theorem checkCoverage_ok {rows : List Row} {L : List IdVal} :
    ∀ {ss : List IdVal}, checkCoverage rows L ss = Except.ok () →
      ∀ s ∈ ss, allclose (relevantL rows s) L = Except.ok true := by
  intro ss
  induction ss with
  | nil => intro _ s hs; simp at hs
  | cons s0 rest ih =>
    intro h s hs
    rw [checkCoverage] at h
    rcases hac : allclose (relevantL rows s0) L with e | c
    · rw [hac] at h; simp at h
    · rw [hac] at h
      cases c with
      | false => simp at h
      | true =>
        simp only [if_true] at h
        rcases List.mem_cons.mp hs with rfl | hs'
        · exact hac
        · exact ih h s hs'

/-- Under `allNum`, every cell is numeric. -/
theorem allNum_mem {l : List IdVal} (h : allNum l = true) {v : IdVal}
    (hv : v ∈ l) : v = IdVal.num (numOf v) := by
  rw [allNum, List.all_eq_true] at h
  have hb := h v hv
  cases v with
  | num q => rfl
  | str s => simp at hb

/-- Under the separation hypothesis, two distinct numeric `l_idx` values
of the table are never `isclose`. -/
theorem sep_isclose_false {t : Table} (hsep : lSepB t = true) {x y : ℚ}
    (hx : IdVal.num x ∈ lVals t) (hy : IdVal.num y ∈ lVals t)
    (hne : x ≠ y) : isclose x y = false := by
  have hx' : x ∈ lNums t := by
    rw [lNums, List.mem_filterMap]; exact ⟨IdVal.num x, hx, rfl⟩
  have hy' : y ∈ lNums t := by
    rw [lNums, List.mem_filterMap]; exact ⟨IdVal.num y, hy, rfl⟩
  rw [lSepB, List.all_eq_true] at hsep
  have h1 := hsep x hx'
  rw [List.all_eq_true] at h1
  have h2 := h1 y hy'
  simpa [hne] using h2

/-- Under the separation hypothesis, `isclose` on two numeric table
values forces equality. -/
theorem sep_isclose_eq {t : Table} (hsep : lSepB t = true) {x y : ℚ}
    (hx : IdVal.num x ∈ lVals t) (hy : IdVal.num y ∈ lVals t)
    (hc : isclose x y = true) : x = y := by
  by_contra hne
  rw [sep_isclose_false hsep hx hy hne] at hc
  exact Bool.false_ne_true hc

/-- Semantics of a passed `np.allclose(relevant, L)` assertion when all
distinct numeric `l_idx` values of the table are farther apart than the
tolerances: every id of `L` must actually occur among the relevant
ids. -/
theorem allclose_ok_true_sub {t : Table} (hsep : lSepB t = true)
    {rel L : List IdVal}
    (hrelsub : ∀ v ∈ rel, v ∈ lVals t) (hLsub : ∀ v ∈ L, v ∈ lVals t)
    (hnodup : L.Nodup) (hrelne : rel ≠ [])
    (h : allclose rel L = Except.ok true) :
    ∀ l ∈ L, l ∈ rel := by
  rw [allclose] at h
  by_cases hall : (allNum rel && allNum L) = true
  case neg => rw [if_neg hall] at h; simp at h
  rw [if_pos hall] at h
  obtain ⟨hnr, hnL⟩ := Bool.and_eq_true_iff.mp hall
  by_cases hlen : (rel.map numOf).length = (L.map numOf).length
  · rw [if_pos hlen] at h
    have hzip : (List.zipWith isclose (rel.map numOf) (L.map numOf)).all
        (fun x => x) = true := by simpa using h
    have hlen' : rel.length = L.length := by simpa using hlen
    have hLrel : rel = L := by
      refine List.ext_getElem hlen' ?_
      intro i h1 h2
      have hzlen : i < (List.zipWith isclose (rel.map numOf) (L.map numOf)).length := by
        simp only [List.length_zipWith, List.length_map]
        omega
      have hclose : isclose (numOf (rel[i])) (numOf (L[i])) = true := by
        have hmem := List.getElem_mem hzlen
        have hx := List.all_eq_true.mp hzip _ hmem
        rwa [List.getElem_zipWith, List.getElem_map, List.getElem_map] at hx
      have hri := allNum_mem hnr (List.getElem_mem h1)
      have hLi := allNum_mem hnL (List.getElem_mem h2)
      have heqq : numOf (rel[i]) = numOf (L[i]) :=
        sep_isclose_eq hsep (hri ▸ hrelsub _ (List.getElem_mem h1))
          (hLi ▸ hLsub _ (List.getElem_mem h2)) hclose
      calc rel[i] = IdVal.num (numOf (rel[i])) := hri
        _ = IdVal.num (numOf (L[i])) := by rw [heqq]
        _ = L[i] := hLi.symm
    intro l hl
    exact hLrel ▸ hl
  · rw [if_neg hlen] at h
    by_cases h1 : (rel.map numOf).length = 1
    · rw [if_pos h1] at h
      have hallc : (L.map numOf).all
          (fun y => isclose ((rel.map numOf).headD 0) y) = true := by simpa using h
      rcases rel with _ | ⟨v0, rest⟩
      · exact absurd rfl hrelne
      have hrest : rest = [] := by
        simp only [List.length_map, List.length_cons] at h1
        exact List.eq_nil_of_length_eq_zero (by omega)
      subst hrest
      have hv0 := allNum_mem hnr (List.mem_cons_self v0 [])
      have hv0mem : IdVal.num (numOf v0) ∈ lVals t :=
        hv0 ▸ hrelsub v0 (List.mem_cons_self v0 [])
      have hclose : ∀ l' ∈ L, numOf v0 = numOf l' := by
        intro l' hl'
        have hc : isclose (numOf v0) (numOf l') = true := by
          have := List.all_eq_true.mp hallc _ (List.mem_map_of_mem numOf hl')
          simpa using this
        exact sep_isclose_eq hsep hv0mem
          ((allNum_mem hnL hl') ▸ hLsub l' hl') hc
      intro l hl
      exfalso
      rcases L with _ | ⟨l0, L1⟩
      · simp at hl
      rcases L1 with _ | ⟨l1, L2⟩
      · exact hlen (by simp [h1])
      have hne01 : l0 ≠ l1 := by
        rw [List.nodup_cons] at hnodup
        exact fun hh => hnodup.1 (hh ▸ List.mem_cons_self _ _)
      have he0 := hclose l0 (List.mem_cons_self _ _)
      have he1 := hclose l1 (List.mem_cons_of_mem _ (List.mem_cons_self _ _))
      apply hne01
      calc l0 = IdVal.num (numOf l0) := allNum_mem hnL (List.mem_cons_self _ _)
        _ = IdVal.num (numOf v0) := by rw [he0]
        _ = IdVal.num (numOf l1) := by rw [he1]
        _ = l1 := (allNum_mem hnL (List.mem_cons_of_mem _ (List.mem_cons_self _ _))).symm
    · rw [if_neg h1] at h
      by_cases h2 : (L.map numOf).length = 1
      · rw [if_pos h2] at h
        have hallc : (rel.map numOf).all
            (fun x => isclose x ((L.map numOf).headD 0)) = true := by simpa using h
        rcases L with _ | ⟨l0, L1⟩
        · intro l hl; simp at hl
        have hL1 : L1 = [] := by
          simp only [List.length_map, List.length_cons] at h2
          exact List.eq_nil_of_length_eq_zero (by omega)
        subst hL1
        intro l hl
        have hl0 : l = l0 := by simpa using hl
        subst hl0
        rcases rel with _ | ⟨v0, rest⟩
        · exact absurd rfl hrelne
        have hc : isclose (numOf v0) (numOf l) = true := by
          have := List.all_eq_true.mp hallc _
            (List.mem_map_of_mem numOf (List.mem_cons_self v0 rest))
          simpa using this
        have he : numOf v0 = numOf l :=
          sep_isclose_eq hsep
            ((allNum_mem hnr (List.mem_cons_self v0 rest)) ▸
              hrelsub v0 (List.mem_cons_self v0 rest))
            ((allNum_mem hnL (List.mem_cons_self l [])) ▸
              hLsub l (List.mem_cons_self l [])) hc
        have : v0 = l := by
          calc v0 = IdVal.num (numOf v0) := allNum_mem hnr (List.mem_cons_self v0 rest)
            _ = IdVal.num (numOf l) := by rw [he]
            _ = l := (allNum_mem hnL (List.mem_cons_self l [])).symm
        exact this ▸ List.mem_cons_self _ _
      · rw [if_neg h2] at h; simp at h

/-- When `get_f_df_details` completes without raising and the table's
distinct numeric `l_idx` values are farther apart than the `np.allclose`
tolerances, the table really is a full cross-product. -/
theorem details_ok_full {t : Table} (hsep : lSepB t = true)
    (hok : exceptIsOk (get_f_df_details t).snd = true) : fullCrossB t = true := by
  have hsnd : (get_f_df_details t).snd =
      (checkCoverage t.rows (uniqueFirst (lVals t)) (uniqueFirst (sVals t))).map
        (fun _ => (uniqueFirst (sVals t), uniqueFirst (lVals t))) := rfl
  rw [hsnd] at hok
  rcases hcc : checkCoverage t.rows (uniqueFirst (lVals t)) (uniqueFirst (sVals t))
    with e | u
  · rw [hcc] at hok; simp [Except.map, exceptIsOk] at hok
  cases u
  have hcov := checkCoverage_ok hcc
  rw [fullCrossB, List.all_eq_true]
  intro s hs
  rw [List.all_eq_true]
  intro l hl
  have hsu : s ∈ uniqueFirst (sVals t) := (mem_uniqueFirst s _).mpr hs
  have hlu : l ∈ uniqueFirst (lVals t) := (mem_uniqueFirst l _).mpr hl
  have hac := hcov s hsu
  obtain ⟨r, hr, hrs⟩ := List.mem_map.mp hs
  have hrfil : r ∈ t.rows.filter (fun r => r.1 == s) :=
    List.mem_filter.mpr ⟨hr, by simp [hrs]⟩
  have hrelne : relevantL t.rows s ≠ [] :=
    List.ne_nil_of_mem (List.mem_map_of_mem _ hrfil)
  have hsub1 : ∀ v ∈ relevantL t.rows s, v ∈ lVals t := by
    intro v hv
    obtain ⟨r', hr', hveq⟩ := List.mem_map.mp hv
    exact hveq ▸ List.mem_map_of_mem _ (List.mem_filter.mp hr').1
  have hsub2 : ∀ v ∈ uniqueFirst (lVals t), v ∈ lVals t :=
    fun v hv => (mem_uniqueFirst v _).mp hv
  have hlin := allclose_ok_true_sub hsep hsub1 hsub2
    (nodup_uniqueFirst _) hrelne hac l hlu
  obtain ⟨r2, hr2, hr2l⟩ := List.mem_map.mp hlin
  obtain ⟨hr2rows, hr2s⟩ := List.mem_filter.mp hr2
  rw [List.any_eq_true]
  exact ⟨r2, hr2rows, by rw [Bool.and_eq_true_iff]; exact ⟨hr2s, by simp [hr2l]⟩⟩

/-- A metric specification referencing the performance column `absent`,
which no table of this file carries. -/
def missingColSpec : MetricSpec :=
  ⟨"absent", true, custom_R_metric identity all_scenarios f_mean, []⟩

/-- C2 (amended): if a performance column referenced by some metric
specification is absent from the table, `f_to_R` raises
(unconditionally) before invoking any metric's pipeline, returning an
error and no partial results; and if the table is not a full
cross-product, the same holds provided the distinct numeric
decision-alternative ids are pairwise farther apart than
`np.allclose`'s tolerances (as small integer ids are). -/
theorem f_to_R_fails_on_invalid (t : Table) (R : List (String × MetricSpec))
    (hbad : (∃ p ∈ R, (dfCols t).contains p.2.f = false) ∨
            (lSepB t = true ∧ fullCrossB t = false)) :
    ∃ e, (f_to_R t R).snd = Except.error e := by
  rw [f_to_R]
  dsimp only
  by_cases hcols :
      ((R.map (fun p => p.2.f)).all (fun m => (dfCols t).contains m)) = true
  case neg =>
    rw [if_neg hcols]
    exact ⟨"AssertionError", rfl⟩
  rw [if_pos hcols]
  rcases hbad with ⟨p, hp, hpf⟩ | ⟨hsep, hfc⟩
  · rw [List.all_eq_true] at hcols
    have hcontr := hcols p.2.f (List.mem_map_of_mem _ hp)
    rw [hpf] at hcontr
    exact absurd hcontr Bool.false_ne_true
  · rcases hdet : (get_f_df_details (sort_f_df t).snd).snd with e | sl
    · exact ⟨e, rfl⟩
    · exfalso
      have hok : exceptIsOk (get_f_df_details t).snd = true := by
        have hst : (sort_f_df t).snd = t := rfl
        rw [hst] at hdet
        rw [hdet]
        rfl
      have hfull := details_ok_full hsep hok
      rw [hfc] at hfull
      exact Bool.false_ne_true hfull

/-- Witness for `f_to_R_fails_on_invalid`, one leg per clause: the
coverage clause at the table `tMissing` (missing the combination
`(1, 1)`, with the small integer ids 0 and 1), and the missing-column
clause at the table `tTol` — whose decision-alternative ids are within
`np.allclose` tolerance of each other, showing the column assertion
fires with no separation requirement. -/
theorem f_to_R_fails_on_invalid_witness :
    (∃ e, (f_to_R tMissing [("Mean", meanSpec)]).snd = Except.error e) ∧
    (∃ e, (f_to_R tTol [("Bad", missingColSpec)]).snd = Except.error e) :=
  ⟨f_to_R_fails_on_invalid tMissing [("Mean", meanSpec)]
     (Or.inr ⟨by with_unfolding_all decide, by with_unfolding_all decide⟩),
   f_to_R_fails_on_invalid tTol [("Bad", missingColSpec)]
     (Or.inl ⟨("Bad", missingColSpec), List.mem_cons_self _ _,
       by with_unfolding_all decide⟩)⟩

/-- `getD` of an elementwise combination, inside the common length. -/
theorem getD_zipWith (F : ℚ → ℚ → ℚ) (a : List ℚ) :
    ∀ (b : List ℚ) (j : ℕ), j < a.length → j < b.length →
      (List.zipWith F a b).getD j 0 = F (a.getD j 0) (b.getD j 0) := by
  induction a with
  | nil => intro b j ha _; simp at ha
  | cons x xs ih =>
    intro b j ha hb
    cases b with
    | nil => simp at hb
    | cons y ys =>
      cases j with
      | zero => rfl
      | succ k =>
        simp only [List.zipWith_cons_cons, List.getD_cons_succ]
        exact ih ys k (by simpa using ha) (by simpa using hb)

/-- The columnwise-max fold keeps the row width. -/
theorem foldl_zipWith_max_length (n : ℕ) :
    ∀ (rs : List (List ℚ)) (acc : List ℚ), acc.length = n →
      (∀ r ∈ rs, r.length = n) →
      (rs.foldl (fun acc row => List.zipWith max acc row) acc).length = n := by
  intro rs
  induction rs with
  | nil => intro acc ha _; simpa using ha
  | cons r rs ih =>
    intro acc ha hr
    simp only [List.foldl_cons]
    refine ih _ ?_ (fun x hx => hr x (List.mem_cons_of_mem _ hx))
    simp [List.length_zipWith, ha, hr r (List.mem_cons_self _ _)]

/-- The columnwise-max fold dominates its seed and every row, entrywise. -/
theorem foldl_zipWith_max_le (n j : ℕ) (hj : j < n) :
    ∀ (rs : List (List ℚ)) (acc : List ℚ), acc.length = n →
      (∀ r ∈ rs, r.length = n) →
      acc.getD j 0 ≤ (rs.foldl (fun acc row => List.zipWith max acc row) acc).getD j 0 ∧
      ∀ r ∈ rs, r.getD j 0 ≤
        (rs.foldl (fun acc row => List.zipWith max acc row) acc).getD j 0 := by
  intro rs
  induction rs with
  | nil => intro acc _ _; exact ⟨le_refl _, by simp⟩
  | cons r rs ih =>
    intro acc ha hr
    have hrlen : r.length = n := hr r (List.mem_cons_self _ _)
    have ha' : (List.zipWith max acc r).length = n := by
      simp [List.length_zipWith, ha, hrlen]
    have hrest : ∀ x ∈ rs, x.length = n := fun x hx => hr x (List.mem_cons_of_mem _ hx)
    obtain ⟨hseed, hrows⟩ := ih (List.zipWith max acc r) ha' hrest
    have hz : (List.zipWith max acc r).getD j 0 = max (acc.getD j 0) (r.getD j 0) :=
      getD_zipWith max acc r j (ha ▸ hj) (hrlen ▸ hj)
    simp only [List.foldl_cons]
    refine ⟨le_trans (hz ▸ le_max_left _ _) hseed, ?_⟩
    intro x hx
    rcases List.mem_cons.mp hx with rfl | hx'
    · exact le_trans (hz ▸ le_max_right _ _) hseed
    · exact hrows x hx'

/-- The columnwise-max fold attains its value at the seed or at a row. -/
theorem foldl_zipWith_max_attained (n j : ℕ) (hj : j < n) :
    ∀ (rs : List (List ℚ)) (acc : List ℚ), acc.length = n →
      (∀ r ∈ rs, r.length = n) →
      (rs.foldl (fun acc row => List.zipWith max acc row) acc).getD j 0 = acc.getD j 0 ∨
      ∃ r ∈ rs,
        (rs.foldl (fun acc row => List.zipWith max acc row) acc).getD j 0 = r.getD j 0 := by
  intro rs
  induction rs with
  | nil => intro acc _ _; exact Or.inl rfl
  | cons r rs ih =>
    intro acc ha hr
    have hrlen : r.length = n := hr r (List.mem_cons_self _ _)
    have ha' : (List.zipWith max acc r).length = n := by
      simp [List.length_zipWith, ha, hrlen]
    have hrest : ∀ x ∈ rs, x.length = n := fun x hx => hr x (List.mem_cons_of_mem _ hx)
    have hz : (List.zipWith max acc r).getD j 0 = max (acc.getD j 0) (r.getD j 0) :=
      getD_zipWith max acc r j (ha ▸ hj) (hrlen ▸ hj)
    simp only [List.foldl_cons]
    rcases ih (List.zipWith max acc r) ha' hrest with h | ⟨x, hx, hxeq⟩
    · rcases le_total (r.getD j 0) (acc.getD j 0) with hle | hle
      · exact Or.inl (by rw [h, hz, max_eq_left hle])
      · exact Or.inr ⟨r, List.mem_cons_self _ _, by rw [h, hz, max_eq_right hle]⟩
    · exact Or.inr ⟨x, List.mem_cons_of_mem _ hx, hxeq⟩

/-- `np.amax(g, axis=0)` bounds every row entrywise and is attained. -/
theorem amax0_spec (g : List (List ℚ)) (n : ℕ) (hne : g ≠ [])
    (hrect : ∀ r ∈ g, r.length = n) (j : ℕ) (hj : j < n) :
    (∀ r ∈ g, r.getD j 0 ≤ (amax0 g).getD j 0) ∧
    ∃ r ∈ g, (amax0 g).getD j 0 = r.getD j 0 := by
  cases g with
  | nil => exact absurd rfl hne
  | cons a as =>
    have halen : a.length = n := hrect a (List.mem_cons_self _ _)
    have hrest : ∀ x ∈ as, x.length = n := fun x hx => hrect x (List.mem_cons_of_mem _ hx)
    obtain ⟨hseed, hrows⟩ := foldl_zipWith_max_le n j hj as a halen hrest
    constructor
    · intro r hr
      rcases List.mem_cons.mp hr with rfl | hr'
      · exact hseed
      · exact hrows r hr'
    · rcases foldl_zipWith_max_attained n j hj as a halen hrest with h | ⟨x, hx, hxeq⟩
      · exact ⟨a, List.mem_cons_self _ _, h⟩
      · exact ⟨x, List.mem_cons_of_mem _ hx, hxeq⟩

/-- `identity` preserves the row widths. -/
theorem identity_rect (f : List (List ℚ)) (maximise : Bool) (n : ℕ)
    (hrect : ∀ r ∈ f, r.length = n) : ∀ r ∈ identity f maximise, r.length = n := by
  cases maximise with
  | true => simpa [identity] using hrect
  | false =>
    intro r hr
    rw [identity] at hr
    simp only [Bool.false_eq_true, if_false] at hr
    obtain ⟨r0, hr0, rfl⟩ := List.mem_map.mp hr
    simpa using hrect r0 hr0

/-- `identity` preserves non-emptiness. -/
theorem identity_ne_nil (f : List (List ℚ)) (maximise : Bool) (hne : f ≠ []) :
    identity f maximise ≠ [] := by
  cases maximise <;> simp [identity, hne]

/-- C6: for every non-empty rectangular matrix and either value of
`maximise`, every scenario column of `regret_from_best_da` has all
entries non-positive and attains the value 0 (so its maximum is exactly
0: the best decision alternative in each scenario has 0 regret). -/
theorem regret_from_best_da_col_max_zero (f : List (List ℚ)) (maximise : Bool)
    (n : ℕ) (hrect : ∀ r ∈ f, r.length = n) (hne : f ≠ []) (j : ℕ) (hj : j < n) :
    (∀ x ∈ col (regret_from_best_da f maximise) j, x ≤ 0) ∧
    0 ∈ col (regret_from_best_da f maximise) j := by
  have hgrect : ∀ r ∈ identity f maximise, r.length = n := identity_rect f maximise n hrect
  have hgne : identity f maximise ≠ [] := identity_ne_nil f maximise hne
  obtain ⟨hle, r0, hr0, hr0eq⟩ := amax0_spec (identity f maximise) n hgne hgrect j hj
  have hblen : (amax0 (identity f maximise)).length = n := by
    cases hg : identity f maximise with
    | nil => exact absurd hg hgne
    | cons a as =>
      have := hgrect
      rw [hg] at this
      exact foldl_zipWith_max_length n as a (this a (List.mem_cons_self _ _))
        (fun x hx => this x (List.mem_cons_of_mem _ hx))
  constructor
  · intro x hx
    simp only [col, regret_from_best_da, List.map_map, List.mem_map,
      Function.comp_apply] at hx
    obtain ⟨r, hr, rfl⟩ := hx
    rw [getD_zipWith (fun a b => a - b) r (amax0 (identity f maximise)) j
      ((hgrect r hr) ▸ hj) (hblen ▸ hj)]
    exact sub_nonpos.mpr (hle r hr)
  · simp only [col, regret_from_best_da, List.map_map, List.mem_map,
      Function.comp_apply]
    refine ⟨r0, hr0, ?_⟩
    rw [getD_zipWith (fun a b => a - b) r0 (amax0 (identity f maximise)) j
      ((hgrect r0 hr0) ▸ hj) (hblen ▸ hj), ← hr0eq]
    exact sub_self _

/-- Witness for `regret_from_best_da_col_max_zero` at the concrete 2×2
matrix `[[1,2],[3,0]]`, column 0. -/
theorem regret_from_best_da_col_max_zero_witness :
    (∀ x ∈ col (regret_from_best_da [[(1:ℚ), 2], [3, 0]] true) 0, x ≤ 0) ∧
    0 ∈ col (regret_from_best_da [[(1:ℚ), 2], [3, 0]] true) 0 :=
  regret_from_best_da_col_max_zero [[(1:ℚ), 2], [3, 0]] true 2
    (by decide) (by decide) 0 (by decide)

/-- C3 (amended): for every matrix, `maximise`, `threshold` and
`accept_equal`, `satisfice` equals the indicator that compares the
sign-flipped values against the correspondingly sign-flipped threshold
(`threshold` when maximising, `-threshold` when minimising), returning
1.0 where the comparison (`>=` or `>` per `accept_equal`) holds and 0.0
elsewhere. -/
theorem satisfice_eq_flipped_threshold_indicator (f : List (List ℚ))
    (maximise : Bool) (threshold : ℚ) (accept_equal : Bool) :
    satisfice f maximise threshold accept_equal =
      satisficeSpecAmended f maximise threshold accept_equal := by
  unfold satisfice satisficeSpecAmended
  cases accept_equal <;>
    simp [List.map_map, Function.comp_def, decide_eq_true_eq]

/-- C8: for every matrix, `f_sum` (row sums divided by the scenario
count) equals `f_mean` (row-wise arithmetic means) elementwise. -/
theorem f_sum_eq_f_mean (f : List (List ℚ)) (n : ℕ) (_hn : 1 ≤ n)
    (hrect : ∀ r ∈ f, r.length = n) : f_sum f = f_mean f := by
  cases f with
  | nil => rfl
  | cons a as =>
    unfold f_sum f_mean
    simp only [List.headD_cons]
    refine List.map_congr_left fun r hr => ?_
    rw [rowMean, hrect r hr, hrect a (List.mem_cons_self _ _)]

/-- Witness for `f_sum_eq_f_mean` at the concrete 2×2 matrix
`[[1,2],[3,4]]`. -/
theorem f_sum_eq_f_mean_witness :
    1 ≤ 2 ∧ (∀ r ∈ [[(1:ℚ), 2], [3, 4]], r.length = 2) ∧
      f_sum [[(1:ℚ), 2], [3, 4]] = f_mean [[(1:ℚ), 2], [3, 4]] :=
  ⟨by decide, by decide, f_sum_eq_f_mean _ 2 (by decide) (by decide)⟩

/-- C7: for every rectangular matrix with `n` scenario columns,
`f_variance` (row-wise sample variance with divisor `k-1`) is elementwise
non-negative when `n ≥ 2`, and when `n = 1` every entry is the IEEE NaN
produced by the zero divisor (embedded as `none`) rather than a raised
exception. -/
theorem f_variance_nonneg_and_nan_at_one (f : List (List ℚ)) (n : ℕ)
    (hrect : ∀ r ∈ f, r.length = n) :
    (2 ≤ n → ∀ v ∈ f_variance f, ∃ q, v = some q ∧ 0 ≤ q) ∧
    (n = 1 → ∀ v ∈ f_variance f, v = none) := by
  constructor
  · intro hn v hv
    obtain ⟨r, hr, rfl⟩ := List.mem_map.mp hv
    have hlen : r.length = n := hrect r hr
    rw [rowVarSample, if_pos (hlen ▸ hn)]
    refine ⟨_, rfl, div_nonneg (List.sum_nonneg ?_) ?_⟩
    · intro x hx
      obtain ⟨y, hy, rfl⟩ := List.mem_map.mp hx
      exact sq_nonneg _
    · have h2 : (2:ℚ) ≤ (r.length : ℚ) := by exact_mod_cast hlen ▸ hn
      linarith
  · intro hn v hv
    obtain ⟨r, hr, rfl⟩ := List.mem_map.mp hv
    have hlen : r.length = n := hrect r hr
    rw [rowVarSample, if_neg]
    omega

/-- Witness for `f_variance_nonneg_and_nan_at_one` at the concrete 2×2
matrix `[[1,2],[5,5]]`. -/
theorem f_variance_witness :
    (2 ≤ 2 → ∀ v ∈ f_variance [[(1:ℚ), 2], [5, 5]], ∃ q, v = some q ∧ 0 ≤ q) ∧
    (2 = 1 → ∀ v ∈ f_variance [[(1:ℚ), 2], [5, 5]], v = none) :=
  f_variance_nonneg_and_nan_at_one [[(1:ℚ), 2], [5, 5]] 2 (by decide)

/-- The table object's state after a call of `f_to_R`: the call never
mutates it (its only frame operation, `sort_values`, is used with the
default `inplace=False` and its result discarded or rebound locally). -/
theorem fst_f_to_R (t : Table) (R : List (String × MetricSpec)) :
    (f_to_R t R).fst = t := by
  unfold f_to_R
  dsimp only
  split
  · split <;> rfl
  · rfl

/-- C9: a successful call of `f_to_R` leaves the caller's performance
table exactly as it was: every row, cell and the row order after the
call equal those before the call. -/
theorem f_to_R_leaves_table_unchanged (t : Table) (R : List (String × MetricSpec))
    (res : List (String × List ℚ)) (_h : resultOf t R = some res) :
    (f_to_R t R).fst = t :=
  fst_f_to_R t R

/-- Witness for `f_to_R_leaves_table_unchanged` at the `__main__`
table. -/
theorem f_to_R_leaves_table_unchanged_witness :
    resultOf dfMain [("MeanAll", meanSpec)] = some [("MeanAll", [4, 3, 2, 3])] ∧
    (f_to_R dfMain [("MeanAll", meanSpec)]).fst = dfMain :=
  ⟨by with_unfolding_all decide,
   f_to_R_leaves_table_unchanged dfMain _ [("MeanAll", [4, 3, 2, 3])]
     (by with_unfolding_all decide)⟩

/-- C10: the table `tStrIds` is a full cross-product, but its
decision-alternative ids are strings, so the coverage check of
`get_f_df_details` raises (numpy's `allclose` is a numeric closeness
test) even though the invariant holds. -/
theorem get_f_df_details_raises_on_string_ids :
    fullCrossB tStrIds = true ∧
    exceptIsOk (get_f_df_details tStrIds).snd = false :=
  ⟨by with_unfolding_all decide, by with_unfolding_all decide⟩

end SystemRobustness
